import Mathlib

/-!
Shallow embedding of `ringtactoe` (src/src/lib.rs): a ring of ternary cells
packed into a `u32` as base-3 digits, with rotation, reflection, dihedral
canonicalisation, and win detection on a board (ring + center cell).

Machine integers are modelled as `Nat`; the source's wrapping operations
(`wrapping_mul`, `wrapping_add`, the `i32 -> u32` cast) are made explicit with
`% 2^32` (resp. `Int.emod`).  Plain (panicking) `u32` arithmetic in the source
is modelled as plain `Nat` arithmetic: within the length bound 20 used by every
theorem below, those operations never overflow a `u32`, so the models coincide.
-/

namespace RingTacToe

/-- The `Cell` enum — the three-valued cell (`None`/`X`/`O` in the source). -/
inductive Cell where
  | none
  | X
  | O
deriving DecidableEq

/-- Source `Cell::from_digit`: decode a base-3 digit.  The source marks digits ≥ 3 as
`unreachable!`; every call site passes a value reduced `% 3`, and we return
`Cell.none` on the unreachable arm. -/
def Cell.from_digit : Nat → Cell
  | 0 => Cell.none
  | 1 => Cell.X
  | 2 => Cell.O
  | _ => Cell.none

/-- The digit stored for a cell (the `match` used by `set` and `from_iter`). -/
def Cell.toDigit : Cell → Nat
  | Cell.none => 0
  | Cell.X => 1
  | Cell.O => 2

/-- The `Ring` struct (`int: u32`, `cells: u8`) — `cells` base-3 digits packed into `int`,
most-significant digit = cell 0. -/
structure Ring where
  int : Nat
  cells : Nat
deriving DecidableEq

/-- The modulus `2^32` of the source's `u32` wrapping arithmetic. -/
def U32 : Nat := 2 ^ 32

/-- Source `Ring::new(cells)`: all-empty ring.  The source performs no length check. -/
def Ring.new (cells : Nat) : Ring := ⟨0, cells⟩

/-- Source `Ring::len`. -/
def Ring.len (r : Ring) : Nat := r.cells

/-- Source `Ring::get(i)`: digit at modular index `i`. -/
def Ring.get (r : Ring) (i : Nat) : Cell :=
  let i := i % r.cells
  Cell.from_digit (r.int / 3 ^ (r.cells - i - 1) % 3)

/-- Source `Ring::set(i, cell)`: add the signed difference between the new and old
digit, scaled by the place value.  The source computes the delta in `i32` and
reinterprets it as `u32` for a `wrapping_add`; composing the cast with the
wrapping add is a single `Int.emod 2^32`. -/
def Ring.set (r : Ring) (i : Nat) (cell : Cell) : Ring :=
  let i := i % r.cells
  let multiplier := 3 ^ (r.cells - i - 1)
  let digit := r.int / multiplier % 3
  let diff : Int := (cell.toDigit : Int) - (digit : Int)
  { r with int := (((r.int : Int) + diff * (multiplier : Int)) % (U32 : Int)).toNat }

/-- Source `impl Shl<u8> for Ring` (rotate left): `truncated` uses `wrapping_mul`,
i.e. the product is reduced `% 2^32` before the `% 3^cells`. -/
def Ring.shl (r : Ring) (rhs : Nat) : Ring :=
  let rhs := rhs % r.cells
  let truncated := r.int * 3 ^ rhs % U32 % 3 ^ r.cells
  let wrapped := r.int / 3 ^ (r.cells - rhs)
  ⟨truncated + wrapped, r.cells⟩

/-- Source `impl Shr<u8> for Ring` (rotate right): all arithmetic here is
non-wrapping in the source and stays below `2^32` for `cells ≤ 20`. -/
def Ring.shr (r : Ring) (rhs : Nat) : Ring :=
  let rhs := rhs % r.cells
  let wrapped := r.int % 3 ^ rhs * 3 ^ (r.cells - rhs)
  let truncated := r.int / 3 ^ rhs
  ⟨truncated + wrapped, r.cells⟩

/-- The `Cells` forward iterator (`next`): emits `int / denom % 3`, then
`int %= denom; denom /= 3`, stopping at `denom = 0`.  Starting from
`denom = 3^(cells-1)` the loop runs exactly `cells` times, so the iteration
count is passed explicitly as structural fuel. -/
def iterCells : Nat → Nat → Nat → List Cell
  | 0, _, _ => []
  | steps + 1, int, denom =>
    Cell.from_digit (int / denom % 3) :: iterCells steps (int % denom) (denom / 3)

/-- The `Cells` backward iterator (`next_back`): emits `int % 3`, then
`int /= 3; denom /= 3`, stopping at `denom = 0`; same fuel convention. -/
def iterCellsRev : Nat → Nat → List Cell
  | 0, _ => []
  | steps + 1, int => Cell.from_digit (int % 3) :: iterCellsRev steps (int / 3)

/-- Source `Ring::into_iter()` collected to a list (cells in index order). -/
def Ring.toList (r : Ring) : List Cell := iterCells r.cells r.int (3 ^ (r.cells - 1))

/-- Source `Ring::into_iter().rev()` collected to a list. -/
def Ring.toListRev (r : Ring) : List Cell := iterCellsRev r.cells r.int

/-- Source `impl FromIterator<Cell> for Ring`: fold accumulating digits
most-significant-first (`cells += 1; int = int*3 + digit`). -/
def ringFromList (l : List Cell) : Ring :=
  l.foldl (fun r cell => ⟨r.int * 3 + cell.toDigit, r.cells + 1⟩) ⟨0, 0⟩

/-- The condition of the `debug_assert!(cells <= 20)` that the source checks
after the `FromIterator` fold. -/
def fromIterAssertHolds (l : List Cell) : Prop := (ringFromList l).cells ≤ 20

/-- Source `Ring::reverse`: rebuild from the reversed iterator. -/
def Ring.reverse (r : Ring) : Ring := ringFromList r.toListRev

/-- The candidate list built inside `Ring::canonicalise`:
`(0..cells).map(|n| self << n).flat_map(|ring| [ring, ring.reverse()])`. -/
def Ring.candidates (r : Ring) : List Ring :=
  ((List.range r.cells).map (fun n => [r.shl n, (r.shl n).reverse])).flatten

/-- Source `Iterator::max_by_key(|ring| ring.int)`: maximum by `int`, keeping the
last element on ties, `none` on the empty list. -/
def maxByInt (l : List Ring) : Option Ring :=
  match l with
  | [] => Option.none
  | x :: xs => some (xs.foldl (fun acc y => if acc.int ≤ y.int then y else acc) x)

/-- Source `Ring::canonicalise`: numerically greatest element of the rotation /
reflection candidate list.  The source `unwrap`s the option; the candidate
list is non-empty whenever `cells ≥ 1`, and we default arbitrarily for the
panicking `cells = 0` case. -/
def Ring.canonicalise (r : Ring) : Ring := (maxByInt r.candidates).getD (Ring.new r.cells)

/-- Source `impl PartialEq for Ring`: compare the canonicalised packed values. -/
def Ring.beq (a b : Ring) : Bool := a.canonicalise.int == b.canonicalise.int

/-- The `Win` type — a winning line, anchored on the ring or through the center. -/
inductive Win where
  | Ring (index : Nat)
  | Center (index : Nat)
deriving DecidableEq

/-- The `Board` struct: `center: Cell` plus `ring: Ring`. -/
structure Board where
  center : Cell
  ring : Ring
deriving DecidableEq

/-- Source `Board::new(cells)`. -/
def Board.new (cells : Nat) : Board := ⟨Cell.none, Ring.new cells⟩

/-- Rust `.cycle().take(n)` on a list iterator: `n` elements read cyclically
(empty iterator cycles to the empty iterator). -/
def cycleTake (l : List Cell) (n : Nat) : List Cell :=
  if l.isEmpty then []
  else (List.range n).map (fun i => l.getD (i % l.length) Cell.none)

/-- Rust `.windows(3)` as a list of triples. -/
def windows3 : List Cell → List (Cell × Cell × Cell)
  | a :: b :: c :: rest => (a, b, c) :: windows3 (b :: c :: rest)
  | _ => []

/-- The ring-scan loop of `Board::winner`: return on the first window equal to
`[X, X, X]` or `[O, O, O]`, otherwise fall through with `Cell.none`. -/
def scanWindows : List (Cell × Cell × Cell) → Cell
  | [] => Cell.none
  | (a, b, c) :: rest =>
    if a = Cell.X ∧ b = Cell.X ∧ c = Cell.X then Cell.X
    else if a = Cell.O ∧ b = Cell.O ∧ c = Cell.O then Cell.O
    else scanWindows rest

/-- The center-scan loop of `Board::winner`: return `center` on the first
opposite pair matching it. -/
def scanPairs (center : Cell) : List (Cell × Cell) → Cell
  | [] => Cell.none
  | (a, b) :: rest => if a = center ∧ b = center then center else scanPairs center rest

/-- Source `Board::winner`. -/
def Board.winner (b : Board) : Cell :=
  let ext := cycleTake b.ring.toList (b.ring.cells + 2)
  let ringResult := scanWindows (windows3 ext)
  if ringResult ≠ Cell.none then ringResult
  else if b.center = Cell.none then Cell.none
  else scanPairs b.center (b.ring.toList.zip (b.ring.toList.drop (b.ring.cells / 2)))

/-- The window test of `Board::wins`: `cells == [X; 3] || cells == [O; 3]`. -/
def isWin3 (w : Cell × Cell × Cell) : Bool :=
  decide ((w.1 = Cell.X ∧ w.2.1 = Cell.X ∧ w.2.2 = Cell.X) ∨
    (w.1 = Cell.O ∧ w.2.1 = Cell.O ∧ w.2.2 = Cell.O))

/-- Source `Board::wins`. -/
def Board.wins (b : Board) : List Win :=
  let ext := cycleTake b.ring.toList (b.ring.cells + 2)
  let ringWins := (windows3 ext).enum.filterMap
    (fun p => if isWin3 p.2 then some (Win.Ring p.1) else Option.none)
  let centerWins :=
    if b.center ≠ Cell.none then
      ((b.ring.toList.zip (b.ring.toList.drop (b.ring.cells / 2))).enum.filterMap
        (fun p => if p.2.1 = b.center ∧ p.2.2 = b.center then some (Win.Center p.1)
          else Option.none))
    else []
  ringWins ++ centerWins

/-! ### Specification-side descriptions (formalising the claims' wording) -/

/-- Spec wording: a ring win starts at index `i` when the three cyclically
consecutive cells `i, i+1, i+2` are equal and non-empty. -/
def ringWinAt (r : Ring) (i : Nat) : Prop :=
  r.get i ≠ Cell.none ∧ r.get (i + 1) = r.get i ∧ r.get (i + 2) = r.get i

instance (r : Ring) (i : Nat) : Decidable (ringWinAt r i) :=
  inferInstanceAs (Decidable (_ ∧ _))

/-- Spec wording: a center win at index `i` pairs cell `i` with the
diametrically opposite cell `i + length/2`, both equal to the center's mark. -/
def centerWinAt (b : Board) (i : Nat) : Prop :=
  b.ring.get i = b.center ∧ b.ring.get (i + b.ring.cells / 2) = b.center

instance (b : Board) (i : Nat) : Decidable (centerWinAt b i) :=
  inferInstanceAs (Decidable (_ ∧ _))

/-- Spec wording of `winner()`: the mark of the first ring win in ascending
start-index order (wrap-around included), else the center's mark when some
center-line pair matches it, else no winner. -/
def winnerSpec (b : Board) : Cell :=
  match (List.range b.ring.cells).find? (fun i => decide (ringWinAt b.ring i)) with
  | some i => b.ring.get i
  | Option.none =>
    if b.center ≠ Cell.none ∧
        (List.range (b.ring.cells / 2)).any (fun i => decide (centerWinAt b i)) then
      b.center
    else Cell.none

/-- Spec wording of `wins()`: all ring wins in ascending start-index order,
followed (when the center is non-empty) by all center wins in ascending
index order. -/
def winsSpec (b : Board) : List Win :=
  ((List.range b.ring.cells).filter (fun i => decide (ringWinAt b.ring i))).map Win.Ring
    ++ if b.center ≠ Cell.none then
        ((List.range (b.ring.cells / 2)).filter (fun i => decide (centerWinAt b i))).map
          Win.Center
      else []

/-- The positional (most-significant-first) base-3 value of a cell list. -/
def listVal : List Cell → Nat
  | [] => 0
  | c :: t => c.toDigit * 3 ^ t.length + listVal t

/-! ### Basic cell and digit lemmas -/

theorem Cell.toDigit_lt_three (c : Cell) : c.toDigit < 3 := by
  cases c <;> simp [Cell.toDigit]

theorem Cell.from_digit_toDigit (c : Cell) : Cell.from_digit c.toDigit = c := by
  cases c <;> rfl

/-- Digits strictly below the `k`-th base-3 digit are unchanged by `% 3^k`. -/
theorem digit_mod_pow (a j k : Nat) (h : j < k) :
    a % 3 ^ k / 3 ^ j % 3 = a / 3 ^ j % 3 := by
  have hk : 3 ^ k = 3 ^ j * 3 ^ (k - j) := by rw [← pow_add]; congr 1; omega
  have hkj : 3 ^ (k - j) = 3 * 3 ^ (k - j - 1) := by
    obtain ⟨d, hd⟩ : ∃ d, k - j = d + 1 := ⟨k - j - 1, by omega⟩
    rw [hd, Nat.add_sub_cancel, pow_succ']
  conv_rhs => rw [← Nat.div_add_mod a (3 ^ k)]
  rw [hk, Nat.mul_assoc, Nat.mul_add_div (pow_pos (by norm_num) j), hkj, Nat.mul_assoc,
    Nat.mul_add_mod]

/-- The forward iterator enumerates the base-3 digits most-significant first. -/
theorem iterCells_eq (c : Nat) : ∀ int : Nat,
    iterCells (c + 1) int (3 ^ c) =
      (List.range (c + 1)).map (fun i => Cell.from_digit (int / 3 ^ (c - i) % 3)) := by
  induction c with
  | zero =>
    intro int
    simp [iterCells, List.range_succ]
  | succ c ih =>
    intro int
    have h3 : 3 ^ (c + 1) / 3 = 3 ^ c := by
      rw [pow_succ]; exact Nat.mul_div_cancel _ (by norm_num)
    show Cell.from_digit (int / 3 ^ (c + 1) % 3) ::
        iterCells (c + 1) (int % 3 ^ (c + 1)) (3 ^ (c + 1) / 3) = _
    rw [h3, ih]
    have hr : List.range (c + 1 + 1) = 0 :: (List.range (c + 1)).map Nat.succ :=
      List.range_succ_eq_map _
    rw [hr, List.map_cons, List.map_map]
    congr 1
    apply List.map_congr_left
    intro i hi
    rw [List.mem_range] at hi
    simp only [Function.comp]
    have he : c + 1 - Nat.succ i = c - i := by omega
    rw [he, digit_mod_pow int (c - i) (c + 1) (by omega)]

theorem Ring.get_of_lt (r : Ring) (i : Nat) (h : i < r.cells) :
    r.get i = Cell.from_digit (r.int / 3 ^ (r.cells - 1 - i) % 3) := by
  simp only [Ring.get, Nat.mod_eq_of_lt h]
  have he : r.cells - i - 1 = r.cells - 1 - i := by omega
  rw [he]

theorem Ring.get_mod (r : Ring) (i : Nat) : r.get (i % r.cells) = r.get i := by
  simp only [Ring.get, Nat.mod_mod_of_dvd _ (dvd_refl _)]

theorem Ring.toList_eq (r : Ring) (h : 1 ≤ r.cells) :
    r.toList = (List.range r.cells).map r.get := by
  obtain ⟨c, hc⟩ : ∃ c, r.cells = c + 1 := ⟨r.cells - 1, by omega⟩
  unfold Ring.toList
  rw [hc, Nat.add_sub_cancel, iterCells_eq]
  apply List.map_congr_left
  intro i hi
  rw [List.mem_range] at hi
  rw [Ring.get_of_lt r i (by omega), hc]
  have he : c + 1 - 1 - i = c - i := by omega
  rw [he]

theorem Ring.toList_length (r : Ring) (h : 1 ≤ r.cells) : r.toList.length = r.cells := by
  rw [Ring.toList_eq r h, List.length_map, List.length_range]

theorem cycleTake_toList (r : Ring) (h : 1 ≤ r.cells) (n : Nat) :
    cycleTake r.toList n = (List.range n).map r.get := by
  unfold cycleTake
  have hlen : r.toList.length = r.cells := r.toList_length h
  have hne : r.toList.isEmpty = false := by
    cases hl : r.toList with
    | nil => rw [hl] at hlen; simp at hlen; omega
    | cons a t => rfl
  rw [hne]
  simp only [Bool.false_eq_true, if_false]
  have hget : ∀ j, j < r.cells → r.toList.getD j Cell.none = r.get j := by
    intro j hj
    rw [Ring.toList_eq r h]
    rw [List.getD_eq_getElem _ _ (by simpa using hj)]
    simp
  apply List.map_congr_left
  intro i _
  rw [hlen, hget (i % r.cells) (Nat.mod_lt _ (by omega)), Ring.get_mod]

/-! ### Window, zip and scan machinery -/

theorem windows3_map_range (m : Nat) : ∀ g : Nat → Cell,
    windows3 ((List.range (m + 2)).map g) =
      (List.range m).map (fun i => (g i, g (i + 1), g (i + 2))) := by
  induction m with
  | zero => intro g; rfl
  | succ m ih =>
    intro g
    have e2 : ∀ f : Nat → Cell, (List.range (m + 2)).map f =
        f 0 :: f 1 :: (List.range m).map (f ∘ Nat.succ ∘ Nat.succ) := by
      intro f
      rw [List.range_succ_eq_map, List.map_cons, List.map_map,
        List.range_succ_eq_map, List.map_cons, List.map_map]
      rfl
    have e1 : List.range (m + 1 + 2) = 0 :: (List.range (m + 2)).map Nat.succ :=
      List.range_succ_eq_map _
    rw [e1, List.map_cons, List.map_map, e2 (g ∘ Nat.succ)]
    show (g 0, (g ∘ Nat.succ) 0, (g ∘ Nat.succ) 1) ::
        windows3 ((g ∘ Nat.succ) 0 :: (g ∘ Nat.succ) 1 ::
          (List.range m).map ((g ∘ Nat.succ) ∘ Nat.succ ∘ Nat.succ)) = _
    rw [← e2 (g ∘ Nat.succ), ih (g ∘ Nat.succ)]
    rw [List.range_succ_eq_map, List.map_cons, List.map_map]
    rfl

theorem scanWindows_eq_find (ws : List (Cell × Cell × Cell)) :
    scanWindows ws = (match ws.find? isWin3 with
      | some w => w.1
      | Option.none => Cell.none) := by
  induction ws with
  | nil => rfl
  | cons w rest ih =>
    obtain ⟨a, b, c⟩ := w
    by_cases hx : a = Cell.X ∧ b = Cell.X ∧ c = Cell.X
    · obtain ⟨ha, hb, hc⟩ := hx
      subst ha; subst hb; subst hc
      simp [scanWindows, isWin3, List.find?]
    · by_cases ho : a = Cell.O ∧ b = Cell.O ∧ c = Cell.O
      · obtain ⟨ha, hb, hc⟩ := ho
        subst ha; subst hb; subst hc
        simp [scanWindows, isWin3, List.find?]
      · have hw : isWin3 (a, b, c) = false := by
          simp only [isWin3, decide_eq_false_iff_not]
          tauto
        simp only [scanWindows, if_neg hx, if_neg ho, List.find?, hw, ih]

theorem scanPairs_eq_any (center : Cell) (ps : List (Cell × Cell)) :
    scanPairs center ps =
      (if ps.any (fun p => decide (p.1 = center ∧ p.2 = center)) then center
        else Cell.none) := by
  induction ps with
  | nil => rfl
  | cons p rest ih =>
    obtain ⟨a, b⟩ := p
    by_cases h : a = center ∧ b = center
    · simp [scanPairs, h]
    · simp [scanPairs, h, ih]

theorem zip_drop_map_range (g : Nat → Cell) (n k : Nat) (_hk : k ≤ n) :
    ((List.range n).map g).zip (((List.range n).map g).drop k) =
      (List.range (n - k)).map (fun i => (g i, g (i + k))) := by
  apply List.ext_getElem
  · simp [Nat.min_def]
  · intro i h1 h2
    simp only [List.getElem_zip, List.getElem_drop, List.getElem_map, List.getElem_range]
    have : k + i = i + k := Nat.add_comm _ _
    rw [this]

theorem enum_map_range {α : Type} (n : Nat) (g : Nat → α) :
    ((List.range n).map g).enum = (List.range n).map (fun i => (i, g i)) := by
  apply List.ext_getElem
  · simp
  · intro i h1 h2
    simp [List.getElem_enum]

theorem filterMap_ite_map {α β : Type} (p : α → Prop) [DecidablePred p] (f : α → β)
    (l : List α) :
    l.filterMap (fun x => if p x then some (f x) else Option.none) =
      (l.filter (fun x => decide (p x))).map f := by
  induction l with
  | nil => rfl
  | cons x t ih =>
    by_cases h : p x
    · simp [List.filterMap_cons, List.filter_cons, h, ih]
    · simp [List.filterMap_cons, List.filter_cons, h, ih]

/-- The window test applied to the three cells starting at `i` agrees with the
spec's ring-win predicate. -/
theorem isWin3_eq_ringWinAt (r : Ring) (i : Nat) :
    isWin3 (r.get i, r.get (i + 1), r.get (i + 2)) = decide (ringWinAt r i) := by
  have key : ∀ x y z : Cell,
      ((x = Cell.X ∧ y = Cell.X ∧ z = Cell.X) ∨ (x = Cell.O ∧ y = Cell.O ∧ z = Cell.O)) ↔
        (x ≠ Cell.none ∧ y = x ∧ z = x) := by
    intro x y z
    cases x <;> cases y <;> cases z <;> decide
  unfold isWin3 ringWinAt
  exact decide_eq_decide.mpr (key _ _ _)

theorem filterMap_ifb_map {β : Type} (p : Nat → Bool) (f : Nat → β) (l : List Nat) :
    l.filterMap (fun x => if p x = true then some (f x) else Option.none) =
      (l.filter p).map f := by
  induction l with
  | nil => rfl
  | cons x t ih =>
    cases h : p x with
    | true => simp [List.filterMap_cons, List.filter_cons, h, ih]
    | false => simp [List.filterMap_cons, List.filter_cons, h, ih]

theorem any_map_pred {α β : Type} (l : List α) (f : α → β) (q : β → Bool) (q' : α → Bool)
    (h : ∀ a, q (f a) = q' a) :
    (l.map f).any q = l.any q' := by
  induction l with
  | nil => rfl
  | cons x t ih => simp [h x, ih]

/-- `Board::winner` computes exactly the spec's first-win description. -/
theorem winner_eq_spec_aux (b : Board) (hc : 1 ≤ b.ring.cells)
    (hev : b.center ≠ Cell.none → b.ring.cells % 2 = 0) :
    b.winner = winnerSpec b := by
  simp only [Board.winner, winnerSpec]
  rw [cycleTake_toList b.ring hc]
  rw [windows3_map_range]
  rw [scanWindows_eq_find]
  rw [List.find?_map]
  have hpred : (isWin3 ∘ fun i => (b.ring.get i, b.ring.get (i + 1), b.ring.get (i + 2)))
      = fun i => decide (ringWinAt b.ring i) := by
    funext i
    exact isWin3_eq_ringWinAt b.ring i
  rw [hpred]
  cases hfind : (List.range b.ring.cells).find? (fun i => decide (ringWinAt b.ring i)) with
  | some i =>
    have hp := List.find?_some hfind
    have hR : ringWinAt b.ring i := of_decide_eq_true hp
    simp [hR.1]
  | none =>
    by_cases hcen : b.center = Cell.none
    · simp [hcen]
    · have hev2 : b.ring.cells % 2 = 0 := hev hcen
      rw [Ring.toList_eq b.ring hc]
      rw [zip_drop_map_range _ _ _ (Nat.div_le_self _ _)]
      have hhalf : b.ring.cells - b.ring.cells / 2 = b.ring.cells / 2 := by omega
      rw [hhalf]
      rw [scanPairs_eq_any]
      rw [any_map_pred _ _ _ (fun i => decide (centerWinAt b i)) (fun a => rfl)]
      simp [hcen]

/-- `Board::wins` computes exactly the spec's enumeration of winning lines. -/
theorem wins_eq_spec_aux (b : Board) (hc : 1 ≤ b.ring.cells)
    (hev : b.ring.cells % 2 = 0) :
    b.wins = winsSpec b := by
  simp only [Board.wins, winsSpec]
  rw [cycleTake_toList b.ring hc]
  rw [windows3_map_range]
  rw [enum_map_range]
  rw [List.filterMap_map]
  have h1 : ((fun p : Nat × (Cell × Cell × Cell) =>
      if isWin3 p.2 = true then some (Win.Ring p.1) else Option.none) ∘
      (fun i => (i, (b.ring.get i, b.ring.get (i + 1), b.ring.get (i + 2)))))
      = fun i => if decide (ringWinAt b.ring i) = true then some (Win.Ring i)
          else Option.none := by
    funext i
    simp only [Function.comp]
    rw [isWin3_eq_ringWinAt]
  rw [h1]
  rw [filterMap_ifb_map (fun i => decide (ringWinAt b.ring i)) Win.Ring]
  by_cases hcen : b.center = Cell.none
  · simp [hcen]
  · rw [if_pos hcen, if_pos hcen]
    rw [Ring.toList_eq b.ring hc]
    rw [zip_drop_map_range _ _ _ (Nat.div_le_self _ _)]
    have hhalf : b.ring.cells - b.ring.cells / 2 = b.ring.cells / 2 := by omega
    rw [hhalf]
    rw [enum_map_range]
    rw [List.filterMap_map]
    have h2 : ((fun p : Nat × (Cell × Cell) =>
        if p.2.1 = b.center ∧ p.2.2 = b.center then some (Win.Center p.1) else Option.none) ∘
        (fun i => (i, (b.ring.get i, b.ring.get (i + b.ring.cells / 2)))))
        = fun i => if decide (centerWinAt b i) = true then some (Win.Center i)
            else Option.none := by
      funext i
      simp only [Function.comp]
      by_cases h : b.ring.get i = b.center ∧ b.ring.get (i + b.ring.cells / 2) = b.center
      · simp [h, centerWinAt]
      · simp [h, centerWinAt]
    rw [h2]
    rw [filterMap_ifb_map (fun i => decide (centerWinAt b i)) Win.Center]

/-- At spec level, "no winner" and "no winning lines" coincide. -/
theorem winnerSpec_none_iff_winsSpec_nil (b : Board) :
    winnerSpec b = Cell.none ↔ winsSpec b = [] := by
  unfold winnerSpec winsSpec
  cases hfind : (List.range b.ring.cells).find? (fun i => decide (ringWinAt b.ring i)) with
  | some i =>
    have hp := List.find?_some hfind
    have hR : ringWinAt b.ring i := of_decide_eq_true hp
    have hmem : i ∈ List.range b.ring.cells := List.mem_of_find?_eq_some hfind
    constructor
    · intro h
      exact absurd h hR.1
    · intro h
      exfalso
      rw [List.append_eq_nil] at h
      obtain ⟨h1, _⟩ := h
      rw [List.map_eq_nil_iff] at h1
      have hin : i ∈ (List.range b.ring.cells).filter
          (fun i => decide (ringWinAt b.ring i)) :=
        List.mem_filter.mpr ⟨hmem, decide_eq_true hR⟩
      rw [h1] at hin
      exact absurd hin (List.not_mem_nil i)
  | none =>
    have hfilter : (List.range b.ring.cells).filter
        (fun i => decide (ringWinAt b.ring i)) = [] := by
      rw [List.filter_eq_nil_iff]
      intro a ha
      have := List.find?_eq_none.mp hfind a ha
      simpa using this
    rw [hfilter]
    simp only [List.map_nil, List.nil_append]
    by_cases hcen : b.center = Cell.none
    · simp [hcen]
    · rw [if_pos hcen]
      cases hany : (List.range (b.ring.cells / 2)).any (fun i => decide (centerWinAt b i)) with
      | false =>
        have hfilter2 : (List.range (b.ring.cells / 2)).filter
            (fun i => decide (centerWinAt b i)) = [] := by
          rw [List.filter_eq_nil_iff]
          intro a ha hpa
          have : (List.range (b.ring.cells / 2)).any
              (fun i => decide (centerWinAt b i)) = true :=
            List.any_eq_true.mpr ⟨a, ha, hpa⟩
          rw [hany] at this
          exact Bool.false_ne_true this
        simp [hany, hcen, hfilter2]
      | true =>
        obtain ⟨a, ha, hpa⟩ := List.any_eq_true.mp hany
        constructor
        · intro h
          rw [if_pos ⟨hcen, rfl⟩] at h
          exact absurd h hcen
        · intro h
          exfalso
          rw [List.map_eq_nil_iff, List.filter_eq_nil_iff] at h
          exact h a ha hpa

/-! ### Digit surgery: the arithmetic behind `Ring::set` -/

theorem div_pow_mod_three_add (t b q : Nat) :
    (3 ^ (q + 1) * t + b) / 3 ^ q % 3 = b / 3 ^ q % 3 := by
  have h : 3 ^ (q + 1) * t = 3 ^ q * (3 * t) := by rw [pow_succ]; ring
  rw [h, Nat.mul_add_div (pow_pos (by norm_num) q), Nat.mul_add_mod]

theorem parts_div_pow_succ (a e b p : Nat) (he : e < 3) (hb : b < 3 ^ p) :
    (a * 3 ^ (p + 1) + e * 3 ^ p + b) / 3 ^ (p + 1) = a := by
  have hlt : e * 3 ^ p + b < 3 ^ (p + 1) := by
    have h3 : 3 ^ (p + 1) = 3 * 3 ^ p := by rw [pow_succ]; ring
    have he2 : e * 3 ^ p ≤ 2 * 3 ^ p := Nat.mul_le_mul_right _ (by omega)
    omega
  rw [Nat.add_assoc, Nat.mul_comm a, Nat.mul_add_div (pow_pos (by norm_num) (p + 1)),
    Nat.div_eq_of_lt hlt, Nat.add_zero]

theorem parts_digit_at (a e b p : Nat) (he : e < 3) (hb : b < 3 ^ p) :
    (a * 3 ^ (p + 1) + e * 3 ^ p + b) / 3 ^ p % 3 = e := by
  have h1 : a * 3 ^ (p + 1) + e * 3 ^ p + b = 3 ^ p * (3 * a + e) + b := by
    rw [pow_succ]; ring
  rw [h1, Nat.mul_add_div (pow_pos (by norm_num) p), Nat.div_eq_of_lt hb, Nat.add_zero,
    Nat.mul_add_mod, Nat.mod_eq_of_lt he]

theorem parts_digit_below (a e b p q : Nat) (hq : q < p) :
    (a * 3 ^ (p + 1) + e * 3 ^ p + b) / 3 ^ q % 3 = b / 3 ^ q % 3 := by
  have e1 : a * 3 ^ (p + 1) = 3 ^ (q + 1) * (a * 3 ^ (p - q)) := by
    have hexp : q + 1 + (p - q) = p + 1 := by omega
    calc a * 3 ^ (p + 1) = a * 3 ^ (q + 1 + (p - q)) := by rw [hexp]
      _ = 3 ^ (q + 1) * (a * 3 ^ (p - q)) := by rw [pow_add]; ring
  have e2 : e * 3 ^ p = 3 ^ (q + 1) * (e * 3 ^ (p - q - 1)) := by
    have hexp : q + 1 + (p - q - 1) = p := by omega
    calc e * 3 ^ p = e * 3 ^ (q + 1 + (p - q - 1)) := by rw [hexp]
      _ = 3 ^ (q + 1) * (e * 3 ^ (p - q - 1)) := by rw [pow_add]; ring
  have h1 : a * 3 ^ (p + 1) + e * 3 ^ p + b
      = 3 ^ (q + 1) * (a * 3 ^ (p - q) + e * 3 ^ (p - q - 1)) + b := by
    rw [Nat.mul_add, ← e1, ← e2]
  rw [h1, div_pow_mod_three_add]

theorem parts_digit_above (a e b p q : Nat) (he : e < 3) (hb : b < 3 ^ p) (hq : p < q) :
    (a * 3 ^ (p + 1) + e * 3 ^ p + b) / 3 ^ q = a / 3 ^ (q - p - 1) := by
  have hsplit : 3 ^ q = 3 ^ (p + 1) * 3 ^ (q - p - 1) := by
    rw [← pow_add]; congr 1; omega
  rw [hsplit, ← Nat.div_div_eq_div_mul, parts_div_pow_succ a e b p he hb]

theorem parts_lt (a e b p c : Nat) (hpc : p < c) (ha : a < 3 ^ (c - p - 1)) (he : e < 3)
    (hb : b < 3 ^ p) :
    a * 3 ^ (p + 1) + e * 3 ^ p + b < 3 ^ c := by
  have hstep : e * 3 ^ p + b < 3 ^ (p + 1) := by
    have h3 : 3 ^ (p + 1) = 3 * 3 ^ p := by rw [pow_succ]; ring
    have he2 : e * 3 ^ p ≤ 2 * 3 ^ p := Nat.mul_le_mul_right _ (by omega)
    omega
  have h1 : a * 3 ^ (p + 1) + e * 3 ^ p + b < (a + 1) * 3 ^ (p + 1) := by
    have hsm : (a + 1) * 3 ^ (p + 1) = a * 3 ^ (p + 1) + 3 ^ (p + 1) := by ring
    omega
  have h2 : (a + 1) * 3 ^ (p + 1) ≤ 3 ^ c := by
    have hc : 3 ^ c = 3 ^ (c - p - 1) * 3 ^ (p + 1) := by
      rw [← pow_add]; congr 1; omega
    rw [hc]
    exact Nat.mul_le_mul_right _ (by omega)
  omega

/-- Every natural splits into (higher digits, the digit at place `p`, lower digits). -/
theorem digit_decomp (n p : Nat) :
    n = n / 3 ^ (p + 1) * 3 ^ (p + 1) + n / 3 ^ p % 3 * 3 ^ p + n % 3 ^ p := by
  have h1 := Nat.div_add_mod n (3 ^ p)
  have h2 := Nat.div_add_mod (n / 3 ^ p) 3
  have h3 : n / 3 ^ p / 3 = n / 3 ^ (p + 1) := by
    rw [Nat.div_div_eq_div_mul, ← pow_succ]
  rw [h3] at h2
  calc n = 3 ^ p * (n / 3 ^ p) + n % 3 ^ p := h1.symm
    _ = 3 ^ p * (3 * (n / 3 ^ (p + 1)) + n / 3 ^ p % 3) + n % 3 ^ p := by rw [h2]
    _ = n / 3 ^ (p + 1) * 3 ^ (p + 1) + n / 3 ^ p % 3 * 3 ^ p + n % 3 ^ p := by
        rw [pow_succ]; ring

theorem div_lt_pow (n p c : Nat) (hpc : p < c) (hn : n < 3 ^ c) :
    n / 3 ^ (p + 1) < 3 ^ (c - p - 1) := by
  rw [Nat.div_lt_iff_lt_mul (pow_pos (by norm_num) _)]
  calc n < 3 ^ c := hn
    _ = 3 ^ (c - p - 1) * 3 ^ (p + 1) := by rw [← pow_add]; congr 1; omega

theorem Ring.set_cells (r : Ring) (i : Nat) (cell : Cell) :
    (r.set i cell).cells = r.cells := rfl

/-- The packed value after `set`: the digit at place `cells - i%cells - 1` is
replaced by the new cell's digit and everything else is untouched. -/
theorem Ring.set_int_eq (r : Ring) (hc : 1 ≤ r.cells) (h20 : r.cells ≤ 20)
    (hinv : r.int < 3 ^ r.cells) (i : Nat) (cell : Cell) :
    (r.set i cell).int =
      r.int / 3 ^ (r.cells - i % r.cells - 1 + 1) * 3 ^ (r.cells - i % r.cells - 1 + 1)
        + cell.toDigit * 3 ^ (r.cells - i % r.cells - 1)
        + r.int % 3 ^ (r.cells - i % r.cells - 1) := by
  simp only [Ring.set]
  have hplt : r.cells - i % r.cells - 1 < r.cells := by
    have := Nat.mod_lt i (show 0 < r.cells by omega)
    omega
  set p := r.cells - i % r.cells - 1 with hp
  have hdec := digit_decomp r.int p
  set A := r.int / 3 ^ (p + 1) with hA
  set D := r.int / 3 ^ p % 3 with hD
  set B := r.int % 3 ^ p with hB
  have hDlt : D < 3 := by rw [hD]; exact Nat.mod_lt _ (by norm_num)
  have hBlt : B < 3 ^ p := by rw [hB]; exact Nat.mod_lt _ (pow_pos (by norm_num) _)
  have hAlt : A < 3 ^ (r.cells - p - 1) := by rw [hA]; exact div_lt_pow _ _ _ hplt hinv
  have hNlt : A * 3 ^ (p + 1) + cell.toDigit * 3 ^ p + B < 3 ^ r.cells :=
    parts_lt _ _ _ _ _ hplt hAlt cell.toDigit_lt_three hBlt
  have hN32 : A * 3 ^ (p + 1) + cell.toDigit * 3 ^ p + B < U32 := by
    have h1 : (3 : Nat) ^ r.cells ≤ 3 ^ 20 := Nat.pow_le_pow_right (by norm_num) h20
    have h2 : (3 : Nat) ^ 20 < U32 := by norm_num [U32]
    omega
  have hval : (r.int : Int) + ((cell.toDigit : Int) - (D : Int)) * ((3 ^ p : Nat) : Int) =
      ((A * 3 ^ (p + 1) + cell.toDigit * 3 ^ p + B : Nat) : Int) := by
    rw [hdec]
    push_cast
    ring
  rw [hval]
  rw [Int.emod_eq_of_lt (Int.natCast_nonneg _) (by exact_mod_cast hN32)]
  exact Int.toNat_natCast _

/-- After `set i cell`, reading index `i` gives back `cell`. -/
theorem Ring.get_set_same (r : Ring) (hc : 1 ≤ r.cells) (h20 : r.cells ≤ 20)
    (hinv : r.int < 3 ^ r.cells) (i : Nat) (cell : Cell) :
    (r.set i cell).get i = cell := by
  have hcells : (r.set i cell).cells = r.cells := rfl
  simp only [Ring.get, hcells]
  rw [Ring.set_int_eq r hc h20 hinv i cell]
  rw [parts_digit_at _ _ _ _ cell.toDigit_lt_three (Nat.mod_lt _ (pow_pos (by norm_num) _))]
  exact Cell.from_digit_toDigit cell

/-- After `set i cell`, every index addressing a different cell is unchanged. -/
theorem Ring.get_set_other (r : Ring) (hc : 1 ≤ r.cells) (h20 : r.cells ≤ 20)
    (hinv : r.int < 3 ^ r.cells) (i j : Nat) (cell : Cell)
    (hij : j % r.cells ≠ i % r.cells) :
    (r.set i cell).get j = r.get j := by
  have hcells : (r.set i cell).cells = r.cells := rfl
  simp only [Ring.get, hcells]
  rw [Ring.set_int_eq r hc h20 hinv i cell]
  have hi := Nat.mod_lt i (show 0 < r.cells by omega)
  have hj := Nat.mod_lt j (show 0 < r.cells by omega)
  set p := r.cells - i % r.cells - 1 with hp
  set q := r.cells - j % r.cells - 1 with hq
  have hqp : q ≠ p := by omega
  have hBlt : r.int % 3 ^ p < 3 ^ p := Nat.mod_lt _ (pow_pos (by norm_num) _)
  rcases Nat.lt_or_ge q p with hlt | hge
  · rw [parts_digit_below _ _ _ _ _ hlt]
    conv_rhs => rw [digit_decomp r.int p]
    rw [parts_digit_below _ _ _ _ _ hlt]
  · have hgt : p < q := by omega
    have h1 : (r.int / 3 ^ (p + 1) * 3 ^ (p + 1) + cell.toDigit * 3 ^ p + r.int % 3 ^ p)
        / 3 ^ q = r.int / 3 ^ (p + 1) / 3 ^ (q - p - 1) :=
      parts_digit_above _ _ _ _ _ cell.toDigit_lt_three hBlt hgt
    have h2 : r.int / 3 ^ q = r.int / 3 ^ (p + 1) / 3 ^ (q - p - 1) := by
      conv_lhs => rw [digit_decomp r.int p]
      exact parts_digit_above _ _ _ _ _ (Nat.mod_lt _ (by norm_num)) hBlt hgt
    rw [h1, ← h2]

/-! ### The `FromIterator` fold -/

theorem ringFromList_go (l : List Cell) : ∀ r : Ring,
    l.foldl (fun r cell => ⟨r.int * 3 + cell.toDigit, r.cells + 1⟩) r
      = ⟨r.int * 3 ^ l.length + listVal l, r.cells + l.length⟩ := by
  induction l with
  | nil => intro r; simp [listVal]
  | cons c t ih =>
    intro r
    rw [List.foldl_cons, ih]
    simp only [listVal, List.length_cons, Ring.mk.injEq]
    constructor
    · rw [pow_succ]; ring
    · omega

theorem ringFromList_eq (l : List Cell) : ringFromList l = ⟨listVal l, l.length⟩ := by
  unfold ringFromList
  rw [ringFromList_go]
  simp

theorem listVal_lt (l : List Cell) : listVal l < 3 ^ l.length := by
  induction l with
  | nil => simp [listVal]
  | cons c t ih =>
    simp only [listVal, List.length_cons]
    have h3 : 3 ^ (t.length + 1) = 3 * 3 ^ t.length := by rw [pow_succ]; ring
    have hd := c.toDigit_lt_three
    have hd2 : c.toDigit * 3 ^ t.length ≤ 2 * 3 ^ t.length :=
      Nat.mul_le_mul_right _ (by omega)
    omega

theorem listVal_digit (l : List Cell) : ∀ i, i < l.length →
    listVal l / 3 ^ (l.length - 1 - i) % 3 = (l.getD i Cell.none).toDigit := by
  induction l with
  | nil => intro i hi; simp at hi
  | cons c t ih =>
    intro i hi
    cases i with
    | zero =>
      simp only [listVal, List.length_cons, List.getD_cons_zero]
      have he : t.length + 1 - 1 - 0 = t.length := by omega
      rw [he, Nat.mul_comm, Nat.mul_add_div (pow_pos (by norm_num) _),
        Nat.div_eq_of_lt (listVal_lt t), Nat.add_zero, Nat.mod_eq_of_lt c.toDigit_lt_three]
    | succ j =>
      simp only [listVal, List.length_cons, List.getD_cons_succ]
      rw [List.length_cons] at hi
      have hj : j < t.length := by omega
      have he : t.length + 1 - 1 - (j + 1) = t.length - 1 - j := by omega
      rw [he]
      set q := t.length - 1 - j with hq
      have hsplit : c.toDigit * 3 ^ t.length
          = 3 ^ (q + 1) * (c.toDigit * 3 ^ (t.length - q - 1)) := by
        rw [show (3 : Nat) ^ t.length = 3 ^ (q + 1) * 3 ^ (t.length - q - 1) from by
          rw [← pow_add]; congr 1; omega]
        ring
      rw [hsplit, div_pow_mod_three_add]
      exact ih j hj

theorem ringFromList_get (l : List Cell) (i : Nat) (hi : i < l.length) :
    (ringFromList l).get i = l.getD i Cell.none := by
  rw [ringFromList_eq]
  rw [Ring.get_of_lt _ _ (by simpa using hi)]
  show Cell.from_digit (listVal l / 3 ^ (l.length - 1 - i) % 3) = _
  rw [listVal_digit l i hi, Cell.from_digit_toDigit]

/-! ### Claim theorems -/

/-- C1: the claim says rotate-left (`<<`) is the cyclic left shift for every
ring of length 1..=20.  It is not: on the valid 11-cell ring with packed value
118098 (an `O` at index 0, invariant `118098 < 3^11` holds), shifting left by
10 must put that `O` at index 1 (`result.get 1 = orig.get (1+10)`), but the
`wrapping_mul` overflows 2^32 and produces a different digit. -/
theorem shl_not_cyclic_shift :
    (Ring.mk 118098 11).int < 3 ^ 11 ∧
      ((Ring.mk 118098 11).shl 10).get 1 ≠ (Ring.mk 118098 11).get (1 + 10) := by
  decide

/-- C5: the claim says every operation preserves `packed < 3^length`.
Rotate-left does not: the same overflow makes `(⟨118098, 11⟩ << 10).int = 178232
≥ 3^11 = 177147`, violating the invariant. -/
theorem shl_breaks_invariant :
    (Ring.mk 118098 11).int < 3 ^ 11 ∧ 3 ^ 11 ≤ ((Ring.mk 118098 11).shl 10).int := by
  decide

/-- C6: the claim says `rotate_left(rotate_right(r, k), k)` has identical
packed value for every ring of length 1..=20 and every `k`.  The all-`O`
11-cell ring with `k = 10` refutes it: rotate-right fixes the ring and the
subsequent rotate-left overflows. -/
theorem shr_shl_roundtrip_fails :
    (Ring.mk 177146 11).int < 3 ^ 11 ∧
      (((Ring.mk 177146 11).shr 10).shl 10).int ≠ (Ring.mk 177146 11).int := by
  decide

/-- C2: the claim says equality holds iff the rings are in the same dihedral
orbit.  The 11-cell ring `a` with a single `O` at index 0 and its one-step
right rotation `b` (`b = a >> 1`, so `b.get (i+1) = a.get i` for every index)
are in the same orbit, yet the `canonicalise`-based equality reports `false`,
because the rotate-left overflow corrupts the canonical forms. -/
theorem eq_not_rotation_invariant :
    (Ring.mk 118098 11).int < 3 ^ 11 ∧ (Ring.mk 39366 11).int < 3 ^ 11 ∧
      (Ring.mk 118098 11).shr 1 = Ring.mk 39366 11 ∧
      (∀ i : Fin 11, (Ring.mk 39366 11).get (i.val + 1) = (Ring.mk 118098 11).get i.val) ∧
      Ring.beq (Ring.mk 118098 11) (Ring.mk 39366 11) = false := by
  decide

/-- C3 counterexample: constructing a ring with oversized length is claimed to
be a construction-time failure, but `Ring::new` has no check at all — length 21
silently succeeds and yields an untruncated 21-cell ring. -/
theorem new_oversized_silently_succeeds :
    Ring.new 21 = Ring.mk 0 21 ∧ (Ring.new 21).cells = 21 := by
  exact ⟨rfl, rfl⟩

/-- C3 (amended): `new(length)` performs no length validation and silently
succeeds, returning a ring with the requested length whose every cell is
empty; only sequence construction guards the bound, via a debug-only
assertion whose condition holds exactly when the sequence length is ≤ 20. -/
theorem new_unchecked_all_empty (n : Nat) (_h1 : 1 ≤ n) (_h2 : n ≤ 20) (i : Nat)
    (l : List Cell) :
    (Ring.new n).cells = n ∧ (Ring.new n).get i = Cell.none ∧
      (fromIterAssertHolds l ↔ l.length ≤ 20) := by
  refine ⟨rfl, ?_, ?_⟩
  · simp [Ring.new, Ring.get, Cell.from_digit]
  · unfold fromIterAssertHolds
    rw [ringFromList_eq]

theorem new_unchecked_all_empty_witness :
    (1 ≤ 8 ∧ 8 ≤ 20) ∧
      ((Ring.new 8).cells = 8 ∧ (Ring.new 8).get 5 = Cell.none ∧
        (fromIterAssertHolds [Cell.X] ↔ [Cell.X].length ≤ 20)) :=
  ⟨⟨by decide, by decide⟩, new_unchecked_all_empty 8 (by decide) (by decide) 5 [Cell.X]⟩

/-- C4: on a valid ring (length 1..=20, invariant), `set i cell` makes `get i`
return `cell`, and leaves every index `j` addressing a different cell
(`j % N ≠ i % N`) unchanged; out-of-range indices address `i % N` by
construction. -/
theorem set_get_frame (r : Ring) (h1 : 1 ≤ r.cells) (h2 : r.cells ≤ 20)
    (hinv : r.int < 3 ^ r.cells) (i j : Nat) (cell : Cell)
    (hij : j % r.cells ≠ i % r.cells) :
    (r.set i cell).get i = cell ∧ (r.set i cell).get j = r.get j :=
  ⟨Ring.get_set_same r h1 h2 hinv i cell,
    Ring.get_set_other r h1 h2 hinv i j cell hij⟩

theorem set_get_frame_witness :
    (1 ≤ 8 ∧ 8 ≤ 20 ∧ 700 < 3 ^ 8 ∧ 5 % 8 ≠ 11 % 8) ∧
      (((Ring.mk 700 8).set 11 Cell.X).get 11 = Cell.X ∧
        ((Ring.mk 700 8).set 11 Cell.X).get 5 = (Ring.mk 700 8).get 5) :=
  ⟨⟨by decide, by decide, by decide, by decide⟩,
    set_get_frame (Ring.mk 700 8) (by decide) (by decide) (by decide) 11 5 Cell.X
      (by decide)⟩

/-- C7: `winner()` returns the mark of the first win found by scanning the
ring windows in ascending start-index order (wrap-around included), then the
center-line pairs, and the empty mark when no win exists — stated as equality
with the spec-side description `winnerSpec`. -/
theorem winner_eq_first_win_spec (b : Board) (h1 : 1 ≤ b.ring.cells)
    (_h2 : b.ring.cells ≤ 20) (_hinv : b.ring.int < 3 ^ b.ring.cells)
    (hev : b.center ≠ Cell.none → b.ring.cells % 2 = 0) :
    b.winner = winnerSpec b :=
  winner_eq_spec_aux b h1 hev

theorem winner_eq_first_win_spec_witness :
    (1 ≤ 8 ∧ 8 ≤ 20 ∧ 3449 < 3 ^ 8) ∧
      Board.winner (Board.mk Cell.X (Ring.mk 3449 8))
        = winnerSpec (Board.mk Cell.X (Ring.mk 3449 8)) :=
  ⟨⟨by decide, by decide, by decide⟩,
    winner_eq_first_win_spec (Board.mk Cell.X (Ring.mk 3449 8)) (by decide) (by decide)
      (by decide) (by decide)⟩

/-- C8: for an even-length board, `wins()` returns exactly the ring wins in
ascending start-index order followed (when the center is non-empty) by the
center wins in ascending index order — stated as equality with the spec-side
enumeration `winsSpec`. -/
theorem wins_eq_enumeration_spec (b : Board) (h1 : 2 ≤ b.ring.cells)
    (_h2 : b.ring.cells ≤ 20) (_hinv : b.ring.int < 3 ^ b.ring.cells)
    (hev : b.ring.cells % 2 = 0) :
    b.wins = winsSpec b :=
  wins_eq_spec_aux b (by omega) hev

theorem wins_eq_enumeration_spec_witness :
    (2 ≤ 8 ∧ 8 ≤ 20 ∧ 3449 < 3 ^ 8 ∧ 8 % 2 = 0) ∧
      Board.wins (Board.mk Cell.X (Ring.mk 3449 8))
        = winsSpec (Board.mk Cell.X (Ring.mk 3449 8)) :=
  ⟨⟨by decide, by decide, by decide, by decide⟩,
    wins_eq_enumeration_spec (Board.mk Cell.X (Ring.mk 3449 8)) (by decide) (by decide)
      (by decide) (by decide)⟩

/-- C10: for an even-length board, `winner()` reports no winner exactly when
`wins()` returns the empty list. -/
theorem winner_none_iff_wins_nil (b : Board) (h1 : 2 ≤ b.ring.cells)
    (_h2 : b.ring.cells ≤ 20) (_hinv : b.ring.int < 3 ^ b.ring.cells)
    (hev : b.ring.cells % 2 = 0) :
    b.winner = Cell.none ↔ b.wins = [] := by
  rw [winner_eq_spec_aux b (by omega) (fun _ => hev), wins_eq_spec_aux b (by omega) hev]
  exact winnerSpec_none_iff_winsSpec_nil b

theorem winner_none_iff_wins_nil_witness :
    (2 ≤ 8 ∧ 8 ≤ 20 ∧ 0 < 3 ^ 8 ∧ 8 % 2 = 0) ∧
      (Board.winner (Board.mk Cell.none (Ring.mk 0 8)) = Cell.none ↔
        Board.wins (Board.mk Cell.none (Ring.mk 0 8)) = []) :=
  ⟨⟨by decide, by decide, by decide, by decide⟩,
    winner_none_iff_wins_nil (Board.mk Cell.none (Ring.mk 0 8)) (by decide) (by decide)
      (by decide) (by decide)⟩

/-- C9: building a ring from a sequence of 1..=20 cells yields a ring whose
length equals the sequence length and whose `get i` reproduces the `i`-th
element, for every in-range `i`. -/
theorem fromList_roundtrip (l : List Cell) (_h1 : 1 ≤ l.length) (_h2 : l.length ≤ 20)
    (i : Nat) (hi : i < l.length) :
    (ringFromList l).cells = l.length ∧ (ringFromList l).get i = l.getD i Cell.none :=
  ⟨by rw [ringFromList_eq], ringFromList_get l i hi⟩

theorem fromList_roundtrip_witness :
    (1 ≤ 3 ∧ 3 ≤ 20 ∧ 1 < 3) ∧
      ((ringFromList [Cell.X, Cell.O, Cell.none]).cells = 3 ∧
        (ringFromList [Cell.X, Cell.O, Cell.none]).get 1
          = [Cell.X, Cell.O, Cell.none].getD 1 Cell.none) :=
  ⟨⟨by decide, by decide, by decide⟩,
    fromList_roundtrip [Cell.X, Cell.O, Cell.none] (by decide) (by decide) 1 (by decide)⟩

end RingTacToe
